import Mathlib

/-!
Verification of a 1-safe Petri-net reachability tool (`reachability.py`).

The source has two core functions:
* `convert_net_to_bfs_format` — the structural adapter turning a parsed net
  (places with initial token counts, transition identifiers, arcs) into an
  initial marking and a transition table;
* `find_reachable_markings_bfs` — a breadth-first exploration of the marking
  space with a `visited` set and a FIFO `queue` (a deque with `popleft` and
  `append`).

Embedding choices:
* Place and transition identifiers are `ℕ` (opaque comparable tokens).
* A marking (Python `set`/`frozenset` of place ids) is a `Finset ℕ`; the Python
  `frozenset(start_marking)` conversion is the identity here since both are
  modelled by `Finset ℕ`.
* The transition table (Python dict, iterated in insertion order by
  `.items()`) is an association list `List (ℕ × TransInfo)`.
* The `while queue:` loop is a fuel-indexed recursion `bfsRun`; the theorems
  show that fuel `2 ^ |places referenced in the net|` always suffices (the
  queue is provably empty at that point and extra fuel changes nothing), so
  the fuel-indexed function computes exactly what the unbounded loop does.
* `bfsRun` is parameterised by the queue-insertion discipline `ins`; the
  FIFO deque of the source is `fifoAppend` (`queue.append(next_marking)`), and the
  order-independence claim is proved for every discipline satisfying `InsOK`.
-/

namespace Reachability

/-- A transition record: the pre/post record dict built by the
adapter and consumed by the engine. -/
structure TransInfo where
  pre : Finset ℕ
  post : Finset ℕ
deriving DecidableEq

/-- A marking: a set of place identifiers (Python `set` / `frozenset`). -/
abbrev Marking := Finset ℕ

/-- The mutable pair of the engine: the `visited` set and the frontier `queue`. -/
abbrev VQ := Finset Marking × List Marking

/-- The enabled test of the engine: `pre_set.issubset(current_marking)`
(line 80 of the source). -/
def enabledTest (current : Marking) (t : TransInfo) : Bool :=
  decide (t.pre ⊆ current)

/-- Firing a transition (lines 83–84 of the source):
`temp_marking = current_marking - pre_set; next_marking_set = temp_marking | post_set`. -/
def fire (current : Marking) (t : TransInfo) : Marking :=
  (current \ t.pre) ∪ t.post

/-- A queue-insertion discipline is admissible when inserting adds exactly one
slot and the resulting queue holds exactly the old elements plus the new one. -/
def InsOK (ins : List Marking → Marking → List Marking) : Prop :=
  ∀ q x, (ins q x).length = q.length + 1 ∧ ∀ y, y ∈ ins q x ↔ y ∈ q ∨ y = x

/-- The FIFO discipline of the source: `queue.append(next_marking)` on a deque
consumed by `popleft`. -/
def fifoAppend (q : List Marking) (x : Marking) : List Marking :=
  q ++ [x]

/-- One iteration of the inner loop body of the engine, `for t_id, t_info in all_transitions.items()` (lines 74–90): test enabledness, fire, and dedup-then-enqueue. -/
def fireStep (ins : List Marking → Marking → List Marking) (current : Marking)
    (vq : VQ) (t : ℕ × TransInfo) : VQ :=
  if enabledTest current t.2 then
    let next := fire current t.2
    if next ∈ vq.1 then vq
    else (insert next vq.1, ins vq.2 next)
  else vq

/-- The whole inner `for` loop over the transition table for one dequeued
marking `current`. -/
def processMarking (ins : List Marking → Marking → List Marking)
    (ts : List (ℕ × TransInfo)) (current : Marking) (vq : VQ) : VQ :=
  ts.foldl (fireStep ins current) vq

/-- The `while queue:` loop (lines 71–90), fuel-indexed: each unit of fuel
permits one `popleft` plus the inner loop over the transitions. -/
def bfsRun (ins : List Marking → Marking → List Marking)
    (ts : List (ℕ × TransInfo)) : ℕ → VQ → VQ
  | 0, vq => vq
  | fuel + 1, vq =>
    match vq.2 with
    | [] => vq
    | current :: rest => bfsRun ins ts fuel (processMarking ins ts current (vq.1, rest))

/-- Every place identifier referenced anywhere in the input of the engine: the
initial marking together with all precondition and postcondition sets. -/
def netPlaces (start : Marking) (ts : List (ℕ × TransInfo)) : Finset ℕ :=
  ts.foldl (fun acc t => acc ∪ t.2.pre ∪ t.2.post) start

/-- A provably sufficient fuel for the loop: the number of subsets of the
referenced places, `2 ^ |places|`. -/
def bfsFuel (start : Marking) (ts : List (ℕ × TransInfo)) : ℕ :=
  2 ^ (netPlaces start ts).card

/-- `find_reachable_markings_bfs` (lines 49–92): seed `visited` and `queue`
with `frozenset(start_marking)` and run the loop to exhaustion; the returned
value is the final `visited` set. -/
def find_reachable_markings_bfs (start_marking : Marking)
    (all_transitions : List (ℕ × TransInfo)) : Finset Marking :=
  let initial_state : Marking := start_marking
  (bfsRun fifoAppend all_transitions (bfsFuel start_marking all_transitions)
    ({initial_state}, [initial_state])).1

/-- The one-step firing relation of the net: some transition of the table is
enabled at `m` and firing it yields m2. -/
def StepRel (ts : List (ℕ × TransInfo)) (m m2 : Marking) : Prop :=
  ∃ t ∈ ts, t.2.pre ⊆ m ∧ m2 = fire m t.2

/-- A marking is reachable when some finite sequence of zero or more
transition firings from the initial marking produces it. -/
inductive Reachable (ts : List (ℕ × TransInfo)) (init : Marking) : Marking → Prop
  | refl : Reachable ts init init
  | step : ∀ (m : Marking) (t : ℕ × TransInfo), Reachable ts init m → t ∈ ts →
      t.2.pre ⊆ m → Reachable ts init (fire m t.2)

/-- Union of the postcondition sets of all transitions. -/
def postUnion (ts : List (ℕ × TransInfo)) : Finset ℕ :=
  ts.foldl (fun acc t => acc ∪ t.2.post) ∅

/-- The invariant the engine maintains on its `(visited, queue)` pair:
visited markings use only places of the net and are all reachable, queue
elements are visited and pairwise distinct, every visited marking not still
pending has had all its successors recorded, and the initial marking is
visited. -/
structure LoopInv (PL : Finset ℕ) (ts : List (ℕ × TransInfo)) (init : Marking)
    (vq : VQ) : Prop where
  vsub : ∀ m ∈ vq.1, m ⊆ PL
  qmem : ∀ m ∈ vq.2, m ∈ vq.1
  qnd : vq.2.Nodup
  sound : ∀ m ∈ vq.1, Reachable ts init m
  closed : ∀ m ∈ vq.1, m ∉ vq.2 → ∀ t ∈ ts, t.2.pre ⊆ m → fire m t.2 ∈ vq.1
  initmem : init ∈ vq.1

/-! ### The structural adapter (`convert_net_to_bfs_format`, lines 15–44) -/

/-- A parsed place: its identifier and initial token count (`p.id`,
`p.initial_marking` in the source). -/
structure Place where
  id : ℕ
  initial_marking : ℕ
deriving DecidableEq

/-- A parsed arc: a source and a target identifier, either of which may name
a place or a transition. -/
structure Arc where
  source : ℕ
  target : ℕ
deriving DecidableEq

/-- Modelled from the spec: the net object of the external parser (the parser
itself is not part of the core sources). Per §6, it exposes places
(identifier-keyed dict of place objects), transitions (only the dict keys are
used), and arcs. Dicts are modelled as association lists in insertion
order. -/
structure PetriNet where
  places : List (ℕ × Place)
  transitions : List ℕ
  arcs : List Arc

/-- The keys of `net.places`, as tested by the Python test `source_id in net.places`. -/
def placeKeys (net : PetriNet) : List ℕ := net.places.map Prod.fst

/-- The update `transitions_dict[tid].pre.add(pid)` on the association-list dict. -/
def addPre (d : List (ℕ × TransInfo)) (tid pid : ℕ) : List (ℕ × TransInfo) :=
  d.map fun e => if e.1 = tid then (e.1, ⟨insert pid e.2.pre, e.2.post⟩) else e

/-- The update `transitions_dict[tid].post.add(pid)` on the association-list dict. -/
def addPost (d : List (ℕ × TransInfo)) (tid pid : ℕ) : List (ℕ × TransInfo) :=
  d.map fun e => if e.1 = tid then (e.1, ⟨e.2.pre, insert pid e.2.post⟩) else e

/-- The body of the adapter loop `for arc in net.arcs` (lines 32–42):
place→transition arcs extend the `pre` set of the target, transition→place
arcs extend the `post` set of the source, and any other arc is ignored. -/
def applyArc (net : PetriNet) (d : List (ℕ × TransInfo)) (arc : Arc) :
    List (ℕ × TransInfo) :=
  if arc.source ∈ placeKeys net ∧ arc.target ∈ net.transitions then
    addPre d arc.target arc.source
  else if arc.source ∈ net.transitions ∧ arc.target ∈ placeKeys net then
    addPost d arc.source arc.target
  else d

/-- `convert_net_to_bfs_format` (lines 15–44): the initial marking is the set
of `p.id` for places with a positive initial token count; the transition
table starts with an empty record per declared transition and is then folded
over the arcs. -/
def convert_net_to_bfs_format (net : PetriNet) : Finset ℕ × List (ℕ × TransInfo) :=
  let initial_marking_set : Finset ℕ :=
    (((net.places.map Prod.snd).filter fun p =>
      decide (0 < p.initial_marking)).map Place.id).toFinset
  let transitions_dict0 := net.transitions.map fun t_id => (t_id, (⟨∅, ∅⟩ : TransInfo))
  let transitions_dict := net.arcs.foldl (applyArc net) transitions_dict0
  (initial_marking_set, transitions_dict)

/-- Dictionary lookup in the association-list model of a Python dict. -/
def dictGet (k : ℕ) : List (ℕ × TransInfo) → Option TransInfo
  | [] => none
  | e :: rest => if e.1 = k then some e.2 else dictGet k rest

/-- Following the words of the spec (§4.1): the precondition set prescribed
for transition `tid` — the sources of the place→transition arcs targeting
`tid` — restricted to an arc list `l` so the arc fold can be analysed by
induction. -/
def specPreL (net : PetriNet) (tid : ℕ) (l : List Arc) : Finset ℕ :=
  ((l.filter fun a =>
    decide (a.source ∈ placeKeys net) && decide (a.target = tid)).map Arc.source).toFinset

/-- Following the words of the spec (§4.1): the precondition set prescribed
for transition `tid` by all arcs of the net. -/
def specPre (net : PetriNet) (tid : ℕ) : Finset ℕ := specPreL net tid net.arcs

/-- Following the words of the spec (§4.1): the postcondition set prescribed
for transition `tid`, restricted to an arc list `l`. -/
def specPostL (net : PetriNet) (tid : ℕ) (l : List Arc) : Finset ℕ :=
  ((l.filter fun a =>
    decide (a.source = tid) && decide (a.target ∈ placeKeys net)).map Arc.target).toFinset

/-- Following the words of the spec (§4.1): the postcondition set prescribed
for transition `tid` by all arcs of the net. -/
def specPost (net : PetriNet) (tid : ℕ) : Finset ℕ := specPostL net tid net.arcs

/-- A small concrete net used to instantiate theorems with hypotheses:
places 1 (one token), 2 and 3 (no token), one transition 10, arcs
1→10 (place→transition), 10→3 (transition→place), 1→2 (place→place,
ignored), 7→10 (unknown source, ignored). -/
def exNet : PetriNet :=
  ⟨[(1, ⟨1, 1⟩), (2, ⟨2, 0⟩), (3, ⟨3, 0⟩)], [10], [⟨1, 10⟩, ⟨10, 3⟩, ⟨1, 2⟩, ⟨7, 10⟩]⟩

/-! ### A state-threaded view of the engine, for the frame property -/

/-- The full variable state of the engine, its two arguments included: used to
state that the loop reads `start_marking` and `all_transitions` but writes
only its local `visited` and `queue`. -/
structure EngineState where
  start_marking : Marking
  all_transitions : List (ℕ × TransInfo)
  visited : Finset Marking
  queue : List Marking

/-- The inner-loop body acting on the full state: only the `visited` and
`queue` fields are ever rewritten. -/
def fireStepSt (current : Marking) (st : EngineState) (t : ℕ × TransInfo) :
    EngineState :=
  if enabledTest current t.2 then
    let next := fire current t.2
    if next ∈ st.visited then st
    else { st with visited := insert next st.visited, queue := st.queue ++ [next] }
  else st

/-- The `while` loop acting on the full state. -/
def bfsRunSt : ℕ → EngineState → EngineState
  | 0, st => st
  | fuel + 1, st =>
    match st.queue with
    | [] => st
    | current :: rest =>
        bfsRunSt fuel (st.all_transitions.foldl (fireStepSt current) { st with queue := rest })

/-- The engine run on the full state, seeded exactly as
`find_reachable_markings_bfs` seeds its locals. -/
def find_reachable_markings_bfs_st (start_marking : Marking)
    (all_transitions : List (ℕ × TransInfo)) : EngineState :=
  let initial_state : Marking := start_marking
  bfsRunSt (bfsFuel start_marking all_transitions)
    ⟨start_marking, all_transitions, {initial_state}, [initial_state]⟩

/-! ### Generic fold lemmas -/

theorem foldl_preserve {α β : Type} (P : β → Prop) (f : β → α → β) :
    ∀ (l : List α) (b : β), P b → (∀ (b2 : β) (a : α), a ∈ l → P b2 → P (f b2 a)) →
      P (l.foldl f b)
  | [], _, hb, _ => hb
  | a :: l, b, hb, hstep =>
      foldl_preserve P f l (f b a) (hstep b a (List.mem_cons_self a l) hb)
        (fun b2 x hx h => hstep b2 x (List.mem_cons_of_mem a hx) h)

/-! ### Behaviour of one inner-loop iteration -/

theorem fireStep_cases (ins : List Marking → Marking → List Marking) (current : Marking)
    (vq : VQ) (t : ℕ × TransInfo) :
    fireStep ins current vq t = vq ∨
      (enabledTest current t.2 = true ∧ fire current t.2 ∉ vq.1 ∧
        fireStep ins current vq t =
          (insert (fire current t.2) vq.1, ins vq.2 (fire current t.2))) := by
  unfold fireStep
  by_cases h1 : enabledTest current t.2
  · by_cases h2 : fire current t.2 ∈ vq.1
    · left; simp [h1, h2]
    · right; exact ⟨h1, h2, by simp [h1, h2]⟩
  · left; simp [h1]

theorem fireStep_visited_mono (ins : List Marking → Marking → List Marking)
    (current : Marking) (vq : VQ) (t : ℕ × TransInfo) :
    vq.1 ⊆ (fireStep ins current vq t).1 := by
  rcases fireStep_cases ins current vq t with h | ⟨_, _, h⟩
  · rw [h]
  · rw [h]; exact Finset.subset_insert _ _

theorem fire_mem_fireStep (ins : List Marking → Marking → List Marking)
    (current : Marking) (vq : VQ) (t : ℕ × TransInfo) (hpre : t.2.pre ⊆ current) :
    fire current t.2 ∈ (fireStep ins current vq t).1 := by
  have henab : enabledTest current t.2 = true := decide_eq_true hpre
  by_cases h2 : fire current t.2 ∈ vq.1
  · simp [fireStep, henab, h2]
  · simp [fireStep, henab, h2]

/-! ### Invariant preservation through one full inner loop -/

theorem processMarking_visited_mono (ins : List Marking → Marking → List Marking)
    (ts : List (ℕ × TransInfo)) (current : Marking) (vq : VQ) :
    vq.1 ⊆ (processMarking ins ts current vq).1 :=
  foldl_preserve (fun w => vq.1 ⊆ w.1) _ ts vq (subset_refl _)
    (fun b2 a _ h => h.trans (fireStep_visited_mono ins current b2 a))

theorem processMarking_queue_mono (ins : List Marking → Marking → List Marking)
    (hins : InsOK ins) (ts : List (ℕ × TransInfo)) (current : Marking) (vq : VQ) :
    ∀ m ∈ vq.2, m ∈ (processMarking ins ts current vq).2 :=
  foldl_preserve (fun w => ∀ m ∈ vq.2, m ∈ w.2) _ ts vq (fun _ h => h)
    (by
      intro b2 a _ h m hm
      rcases fireStep_cases ins current b2 a with he | ⟨_, _, he⟩
      · rw [he]; exact h m hm
      · rw [he]
        exact ((hins b2.2 (fire current a.2)).2 m).mpr (Or.inl (h m hm)))

theorem insOK_nodup {ins : List Marking → Marking → List Marking} (hins : InsOK ins)
    (q : List Marking) (x : Marking) (hq : q.Nodup) (hx : x ∉ q) : (ins q x).Nodup := by
  have hlen : (ins q x).length = q.length + 1 := (hins q x).1
  have hsub : (x :: q).toFinset ⊆ (ins q x).toFinset := by
    intro y hy
    rw [List.mem_toFinset] at hy ⊢
    rw [(hins q x).2 y]
    rcases List.mem_cons.mp hy with h | h
    · exact Or.inr h
    · exact Or.inl h
  have hcard1 : (x :: q).toFinset.card = q.length + 1 := by
    rw [List.toFinset_card_of_nodup (List.nodup_cons.mpr ⟨hx, hq⟩)]
    simp
  have hge : (ins q x).length ≤ (ins q x).toFinset.card := by
    calc (ins q x).length = (x :: q).toFinset.card := by rw [hlen, hcard1]
    _ ≤ (ins q x).toFinset.card := Finset.card_le_card hsub
  have heq : (ins q x).toFinset.card = (ins q x).length :=
    le_antisymm (List.toFinset_card_le _) hge
  rw [List.card_toFinset] at heq
  rw [← List.dedup_eq_self]
  exact (ins q x).dedup_sublist.eq_of_length heq

theorem processMarking_nodup_qmem (ins : List Marking → Marking → List Marking)
    (hins : InsOK ins) (ts : List (ℕ × TransInfo)) (current : Marking) (vq : VQ)
    (h : vq.2.Nodup ∧ ∀ m ∈ vq.2, m ∈ vq.1) :
    (processMarking ins ts current vq).2.Nodup ∧
      ∀ m ∈ (processMarking ins ts current vq).2, m ∈ (processMarking ins ts current vq).1 :=
  foldl_preserve (fun w => w.2.Nodup ∧ ∀ m ∈ w.2, m ∈ w.1) _ ts vq h
    (by
      intro b2 a _ hb
      rcases fireStep_cases ins current b2 a with he | ⟨_, hnot, he⟩
      · rw [he]; exact hb
      · rw [he]
        have hnotq : fire current a.2 ∉ b2.2 := fun hc => hnot (hb.2 _ hc)
        refine ⟨insOK_nodup hins b2.2 _ hb.1 hnotq, ?_⟩
        intro m hm
        rcases ((hins b2.2 (fire current a.2)).2 m).mp hm with h2 | h2
        · exact Finset.mem_insert_of_mem (hb.2 m h2)
        · rw [h2]; exact Finset.mem_insert_self _ _)

theorem processMarking_card (ins : List Marking → Marking → List Marking)
    (hins : InsOK ins) (ts : List (ℕ × TransInfo)) (current : Marking) (vq : VQ) :
    vq.1.card + (processMarking ins ts current vq).2.length
      = (processMarking ins ts current vq).1.card + vq.2.length :=
  foldl_preserve (fun w => vq.1.card + w.2.length = w.1.card + vq.2.length) _ ts vq rfl
    (by
      intro b2 a _ hb
      rcases fireStep_cases ins current b2 a with he | ⟨_, hnot, he⟩
      · rw [he]; exact hb
      · rw [he]
        simp only [(hins b2.2 (fire current a.2)).1,
          Finset.card_insert_of_not_mem hnot]
        omega)

theorem processMarking_bound (ins : List Marking → Marking → List Marking)
    (ts : List (ℕ × TransInfo)) (current : Marking) (vq : VQ) (PL : Finset ℕ)
    (hpl : ∀ t ∈ ts, t.2.post ⊆ PL) (hcur : current ⊆ PL)
    (h : ∀ m ∈ vq.1, m ⊆ PL) :
    ∀ m ∈ (processMarking ins ts current vq).1, m ⊆ PL :=
  foldl_preserve (fun w => ∀ m ∈ w.1, m ⊆ PL) _ ts vq h
    (by
      intro b2 a ha hb m hm
      rcases fireStep_cases ins current b2 a with he | ⟨_, _, he⟩
      · rw [he] at hm; exact hb m hm
      · rw [he] at hm
        rcases Finset.mem_insert.mp hm with h2 | h2
        · rw [h2]
          exact Finset.union_subset ((Finset.sdiff_subset).trans hcur) (hpl a ha)
        · exact hb m h2)

theorem processMarking_sound (ins : List Marking → Marking → List Marking)
    (ts : List (ℕ × TransInfo)) (init current : Marking) (vq : VQ)
    (hcur : Reachable ts init current) (h : ∀ m ∈ vq.1, Reachable ts init m) :
    ∀ m ∈ (processMarking ins ts current vq).1, Reachable ts init m :=
  foldl_preserve (fun w => ∀ m ∈ w.1, Reachable ts init m) _ ts vq h
    (by
      intro b2 a ha hb m hm
      rcases fireStep_cases ins current b2 a with he | ⟨henab, _, he⟩
      · rw [he] at hm; exact hb m hm
      · rw [he] at hm
        rcases Finset.mem_insert.mp hm with h2 | h2
        · rw [h2]
          exact Reachable.step current a hcur ha (of_decide_eq_true henab)
        · exact hb m h2)

theorem processMarking_new_in_queue (ins : List Marking → Marking → List Marking)
    (hins : InsOK ins) (ts : List (ℕ × TransInfo)) (current : Marking) (vq : VQ) :
    ∀ m ∈ (processMarking ins ts current vq).1,
      m ∈ vq.1 ∨ m ∈ (processMarking ins ts current vq).2 :=
  foldl_preserve (fun w => ∀ m ∈ w.1, m ∈ vq.1 ∨ m ∈ w.2) _ ts vq
    (fun m hm => Or.inl hm)
    (by
      intro b2 a _ hb m hm
      rcases fireStep_cases ins current b2 a with he | ⟨_, _, he⟩
      · rw [he] at hm ⊢; exact hb m hm
      · rw [he] at hm ⊢
        rcases Finset.mem_insert.mp hm with h2 | h2
        · exact Or.inr (((hins b2.2 (fire current a.2)).2 m).mpr (Or.inr h2))
        · rcases hb m h2 with h3 | h3
          · exact Or.inl h3
          · exact Or.inr (((hins b2.2 (fire current a.2)).2 m).mpr (Or.inl h3)))

theorem processMarking_closed_current (ins : List Marking → Marking → List Marking)
    (ts : List (ℕ × TransInfo)) (current : Marking) (t0 : ℕ × TransInfo) :
    ∀ (vq : VQ), t0 ∈ ts → t0.2.pre ⊆ current →
      fire current t0.2 ∈ (processMarking ins ts current vq).1 := by
  induction ts with
  | nil => intro vq h _; exact absurd h (List.not_mem_nil t0)
  | cons a l ih =>
    intro vq ht hpre
    have hunf : processMarking ins (a :: l) current vq
        = processMarking ins l current (fireStep ins current vq a) := rfl
    rw [hunf]
    rcases List.mem_cons.mp ht with h | h
    · subst h
      exact processMarking_visited_mono ins l current _
        (fire_mem_fireStep ins current vq t0 hpre)
    · exact ih (fireStep ins current vq a) h hpre

/-! ### Place-universe lemmas -/

theorem netPlaces_spec : ∀ (ts : List (ℕ × TransInfo)) (start : Marking),
    start ⊆ netPlaces start ts ∧
      ∀ t ∈ ts, t.2.pre ⊆ netPlaces start ts ∧ t.2.post ⊆ netPlaces start ts := by
  intro ts
  induction ts with
  | nil =>
    intro start
    exact ⟨subset_refl _, fun t h => absurd h (List.not_mem_nil t)⟩
  | cons a l ih =>
    intro start
    have hunf : netPlaces start (a :: l) = netPlaces (start ∪ a.2.pre ∪ a.2.post) l := rfl
    obtain ⟨h1, h2⟩ := ih (start ∪ a.2.pre ∪ a.2.post)
    refine ⟨?_, ?_⟩
    · rw [hunf]
      exact (Finset.subset_union_left.trans Finset.subset_union_left).trans h1
    · intro t ht
      rcases List.mem_cons.mp ht with he | he
      · subst he
        rw [hunf]
        exact ⟨(Finset.subset_union_right.trans Finset.subset_union_left).trans h1,
          Finset.subset_union_right.trans h1⟩
      · rw [hunf]
        exact h2 t he

theorem postUnion_aux : ∀ (ts : List (ℕ × TransInfo)) (acc : Finset ℕ),
    ∀ t ∈ ts, t.2.post ⊆ ts.foldl (fun a u => a ∪ u.2.post) acc := by
  intro ts
  induction ts with
  | nil => intro acc t h; exact absurd h (List.not_mem_nil t)
  | cons a l ih =>
    intro acc t ht
    have hacc : ∀ (b : Finset ℕ), b ⊆ l.foldl (fun a u => a ∪ u.2.post) b := by
      intro b
      exact foldl_preserve (fun s => b ⊆ s) _ l b (subset_refl _)
        (fun b2 x _ h => h.trans Finset.subset_union_left)
    rcases List.mem_cons.mp ht with he | he
    · subst he
      exact Finset.subset_union_right.trans (hacc (acc ∪ t.2.post))
    · exact ih (acc ∪ a.2.post) t he

theorem postUnion_trans_subset (ts : List (ℕ × TransInfo)) :
    ∀ t ∈ ts, t.2.post ⊆ postUnion ts :=
  postUnion_aux ts ∅

/-! ### The loop invariant -/

theorem processMarking_inv (ins : List Marking → Marking → List Marking)
    (hins : InsOK ins) (PL : Finset ℕ) (ts : List (ℕ × TransInfo)) (init : Marking)
    (hpl : ∀ t ∈ ts, t.2.post ⊆ PL) (v : Finset Marking) (c : Marking)
    (rest : List Marking) (inv : LoopInv PL ts init (v, c :: rest)) :
    LoopInv PL ts init (processMarking ins ts c (v, rest)) := by
  have hcv : c ∈ v := inv.qmem c (List.mem_cons_self c rest)
  have hcur : c ⊆ PL := inv.vsub c hcv
  have hreach : Reachable ts init c := inv.sound c hcv
  have hq0 : ∀ m ∈ rest, m ∈ v := fun m hm => inv.qmem m (List.mem_cons_of_mem c hm)
  have hnd0 : rest.Nodup := (List.nodup_cons.mp inv.qnd).2
  have hmono : v ⊆ (processMarking ins ts c (v, rest)).1 :=
    processMarking_visited_mono ins ts c (v, rest)
  obtain ⟨hnd, hqm⟩ := processMarking_nodup_qmem ins hins ts c (v, rest) ⟨hnd0, hq0⟩
  refine ⟨?_, hqm, hnd, ?_, ?_, ?_⟩
  · exact processMarking_bound ins ts c (v, rest) PL hpl hcur inv.vsub
  · exact processMarking_sound ins ts init c (v, rest) hreach inv.sound
  · intro m hm hmq t ht hpre
    rcases processMarking_new_in_queue ins hins ts c (v, rest) m hm with hv | hq
    · by_cases hmc : m = c
      · subst hmc
        exact processMarking_closed_current ins ts m t (v, rest) ht hpre
      · have hmrest : m ∉ rest := fun hr =>
          hmq (processMarking_queue_mono ins hins ts c (v, rest) m hr)
        have hnotin : m ∉ c :: rest := by
          intro hc
          rcases List.mem_cons.mp hc with h | h
          · exact hmc h
          · exact hmrest h
        exact hmono (inv.closed m hv hnotin t ht hpre)
    · exact absurd hq hmq
  · exact hmono inv.initmem

/-! ### Unfolding lemmas for the loop -/

theorem bfsRun_succ_cons (ins : List Marking → Marking → List Marking)
    (ts : List (ℕ × TransInfo)) (fuel : ℕ) (v : Finset Marking) (c : Marking)
    (rest : List Marking) :
    bfsRun ins ts (fuel + 1) (v, c :: rest)
      = bfsRun ins ts fuel (processMarking ins ts c (v, rest)) := rfl

theorem bfsRun_empty (ins : List Marking → Marking → List Marking)
    (ts : List (ℕ × TransInfo)) (fuel : ℕ) (v : Finset Marking) :
    bfsRun ins ts fuel (v, []) = (v, []) := by
  cases fuel <;> rfl

theorem bfsRun_add (ins : List Marking → Marking → List Marking)
    (ts : List (ℕ × TransInfo)) : ∀ (f g : ℕ) (vq : VQ),
    bfsRun ins ts (f + g) vq = bfsRun ins ts g (bfsRun ins ts f vq) := by
  intro f
  induction f with
  | zero =>
    intro g vq
    rw [Nat.zero_add]
    rfl
  | succ n ih =>
    intro g vq
    obtain ⟨v, q⟩ := vq
    cases q with
    | nil => rw [bfsRun_empty, bfsRun_empty, bfsRun_empty]
    | cons c rest =>
      have hadd : n + 1 + g = (n + g) + 1 := by omega
      rw [hadd, bfsRun_succ_cons, bfsRun_succ_cons, ih]

/-! ### Main loop correctness: the fuel `2 ^ |places|` drains the queue and
the invariant holds at the end -/

theorem bfsRun_correct (ins : List Marking → Marking → List Marking)
    (hins : InsOK ins) (PL : Finset ℕ) (ts : List (ℕ × TransInfo)) (init : Marking)
    (hpl : ∀ t ∈ ts, t.2.post ⊆ PL) :
    ∀ (fuel : ℕ) (vq : VQ), LoopInv PL ts init vq →
      2 ^ PL.card - vq.1.card + vq.2.length ≤ fuel →
      (bfsRun ins ts fuel vq).2 = [] ∧ LoopInv PL ts init (bfsRun ins ts fuel vq) ∧
        vq.1 ⊆ (bfsRun ins ts fuel vq).1 := by
  intro fuel
  induction fuel with
  | zero =>
    intro vq inv hfu
    obtain ⟨v, q⟩ := vq
    cases q with
    | nil => exact ⟨rfl, inv, subset_refl _⟩
    | cons c rest =>
      exfalso
      simp only [List.length_cons] at hfu
      omega
  | succ n ih =>
    intro vq inv hfu
    obtain ⟨v, q⟩ := vq
    cases q with
    | nil => exact ⟨rfl, inv, subset_refl _⟩
    | cons c rest =>
      rw [bfsRun_succ_cons]
      have inv2 : LoopInv PL ts init (processMarking ins ts c (v, rest)) :=
        processMarking_inv ins hins PL ts init hpl v c rest inv
      have hcard : v.card + (processMarking ins ts c (v, rest)).2.length
          = (processMarking ins ts c (v, rest)).1.card + rest.length :=
        processMarking_card ins hins ts c (v, rest)
      have hvcard : (processMarking ins ts c (v, rest)).1.card ≤ 2 ^ PL.card := by
        have hsub : (processMarking ins ts c (v, rest)).1 ⊆ PL.powerset :=
          fun m hm => Finset.mem_powerset.mpr (inv2.vsub m hm)
        calc (processMarking ins ts c (v, rest)).1.card
            ≤ PL.powerset.card := Finset.card_le_card hsub
        _ = 2 ^ PL.card := Finset.card_powerset PL
      have hvmono : v.card ≤ (processMarking ins ts c (v, rest)).1.card :=
        Finset.card_le_card (processMarking_visited_mono ins ts c (v, rest))
      have hfu2 : 2 ^ PL.card - (processMarking ins ts c (v, rest)).1.card
          + (processMarking ins ts c (v, rest)).2.length ≤ n := by
        simp only [List.length_cons] at hfu
        omega
      obtain ⟨h1, h2, h3⟩ := ih (processMarking ins ts c (v, rest)) inv2 hfu2
      exact ⟨h1, h2, (processMarking_visited_mono ins ts c (v, rest)).trans h3⟩

theorem bfsRun_inv (ins : List Marking → Marking → List Marking)
    (hins : InsOK ins) (PL : Finset ℕ) (ts : List (ℕ × TransInfo)) (init : Marking)
    (hpl : ∀ t ∈ ts, t.2.post ⊆ PL) :
    ∀ (fuel : ℕ) (vq : VQ), LoopInv PL ts init vq →
      LoopInv PL ts init (bfsRun ins ts fuel vq) := by
  intro fuel
  induction fuel with
  | zero => intro vq inv; exact inv
  | succ n ih =>
    intro vq inv
    obtain ⟨v, q⟩ := vq
    cases q with
    | nil => exact inv
    | cons c rest =>
      rw [bfsRun_succ_cons]
      exact ih (processMarking ins ts c (v, rest))
        (processMarking_inv ins hins PL ts init hpl v c rest inv)

/-! ### The initial state satisfies the invariant -/

theorem initial_inv (ts : List (ℕ × TransInfo)) (init : Marking) :
    LoopInv (netPlaces init ts) ts init ({init}, [init]) := by
  refine ⟨?_, ?_, ?_, ?_, ?_, ?_⟩
  · intro m hm
    rw [Finset.mem_singleton] at hm
    rw [hm]
    exact (netPlaces_spec ts init).1
  · intro m hm
    rw [List.mem_singleton] at hm
    rw [hm]
    exact Finset.mem_singleton_self init
  · exact List.nodup_singleton init
  · intro m hm
    rw [Finset.mem_singleton] at hm
    rw [hm]
    exact Reachable.refl
  · intro m hm hmq
    exfalso
    rw [Finset.mem_singleton] at hm
    exact hmq (by rw [hm]; exact List.mem_singleton_self init)
  · exact Finset.mem_singleton_self init

/-! ### Characterization: the visited set after the sufficient fuel is exactly
the reachable set, for any admissible worklist discipline -/

theorem mem_bfsRun_iff (ins : List Marking → Marking → List Marking)
    (hins : InsOK ins) (ts : List (ℕ × TransInfo)) (init m : Marking) :
    m ∈ (bfsRun ins ts (bfsFuel init ts) ({init}, [init])).1 ↔ Reachable ts init m := by
  have hpl : ∀ t ∈ ts, t.2.post ⊆ netPlaces init ts :=
    fun t ht => ((netPlaces_spec ts init).2 t ht).2
  have hone : 1 ≤ 2 ^ (netPlaces init ts).card := Nat.one_le_two_pow
  have hfu : 2 ^ (netPlaces init ts).card - ({init} : Finset Marking).card
      + ([init] : List Marking).length ≤ bfsFuel init ts := by
    simp only [Finset.card_singleton, List.length_singleton, bfsFuel]
    omega
  obtain ⟨hemp, hinv, _⟩ := bfsRun_correct ins hins (netPlaces init ts) ts init hpl
    (bfsFuel init ts) ({init}, [init]) (initial_inv ts init) hfu
  constructor
  · exact fun hm => hinv.sound m hm
  · intro hr
    induction hr with
    | refl => exact hinv.initmem
    | step m2 t hr2 ht hpre ih =>
      refine hinv.closed m2 ih ?_ t ht hpre
      rw [hemp]
      exact List.not_mem_nil m2

theorem insOK_fifo : InsOK fifoAppend := by
  intro q x
  constructor
  · simp [fifoAppend]
  · intro y
    simp [fifoAppend]

theorem mem_find_iff (ts : List (ℕ × TransInfo)) (init m : Marking) :
    m ∈ find_reachable_markings_bfs init ts ↔ Reachable ts init m :=
  mem_bfsRun_iff fifoAppend insOK_fifo ts init m

theorem reachable_of_subset (ts ts2 : List (ℕ × TransInfo)) (init : Marking)
    (hsub : ∀ t ∈ ts, t ∈ ts2) : ∀ m, Reachable ts init m → Reachable ts2 init m := by
  intro m h
  induction h with
  | refl => exact Reachable.refl
  | step m2 t h2 ht hpre ih => exact Reachable.step m2 t ih (hsub t ht) hpre

/-! ### Claim theorems -/

/-- C1: for every transition table and initial marking, the set returned by
`find_reachable_markings_bfs` is exactly the set of markings reachable from
the initial marking by zero or more transition firings: a marking is in the
result iff some finite firing sequence from the initial marking produces it. -/
theorem bfs_returns_exactly_reachable (start_marking : Marking)
    (all_transitions : List (ℕ × TransInfo)) (m : Marking) :
    m ∈ find_reachable_markings_bfs start_marking all_transitions ↔
      Reachable all_transitions start_marking m :=
  mem_find_iff all_transitions start_marking m

/-- C2: `find_reachable_markings_bfs` terminates on every finite input: with
fuel `2 ^ |places referenced in the net|` the frontier queue is provably
empty (the `while` loop has exited), any extra fuel leaves the state
unchanged (so the loop cannot run forever, even on cyclic nets), the visited
set never exceeds `2 ^ |places|` markings, and the frontier queue never holds
a duplicate at any point of the run (each marking is enqueued at most once). -/
theorem bfs_terminates_within_powerset_bound (s : Marking)
    (ts : List (ℕ × TransInfo)) :
    (bfsRun fifoAppend ts (bfsFuel s ts) ({s}, [s])).2 = [] ∧
    (∀ extra : ℕ, bfsRun fifoAppend ts (bfsFuel s ts + extra) ({s}, [s])
        = bfsRun fifoAppend ts (bfsFuel s ts) ({s}, [s])) ∧
    (find_reachable_markings_bfs s ts).card ≤ 2 ^ (netPlaces s ts).card ∧
    (∀ fuel : ℕ, (bfsRun fifoAppend ts fuel ({s}, [s])).2.Nodup) := by
  have hpl : ∀ t ∈ ts, t.2.post ⊆ netPlaces s ts :=
    fun t ht => ((netPlaces_spec ts s).2 t ht).2
  have hone : 1 ≤ 2 ^ (netPlaces s ts).card := Nat.one_le_two_pow
  have hfu : 2 ^ (netPlaces s ts).card - ({s} : Finset Marking).card
      + ([s] : List Marking).length ≤ bfsFuel s ts := by
    simp only [Finset.card_singleton, List.length_singleton, bfsFuel]
    omega
  obtain ⟨hemp, hinv, _⟩ := bfsRun_correct fifoAppend insOK_fifo (netPlaces s ts) ts s
    hpl (bfsFuel s ts) ({s}, [s]) (initial_inv ts s) hfu
  refine ⟨hemp, ?_, ?_, ?_⟩
  · intro extra
    have hx : bfsRun fifoAppend ts (bfsFuel s ts) ({s}, [s])
        = ((bfsRun fifoAppend ts (bfsFuel s ts) ({s}, [s])).1, []) :=
      Prod.ext_iff.mpr ⟨rfl, hemp⟩
    rw [bfsRun_add, hx, bfsRun_empty]
  · have hsub : find_reachable_markings_bfs s ts ⊆ (netPlaces s ts).powerset :=
      fun m hm => Finset.mem_powerset.mpr (hinv.vsub m hm)
    calc (find_reachable_markings_bfs s ts).card
        ≤ (netPlaces s ts).powerset.card := Finset.card_le_card hsub
    _ = 2 ^ (netPlaces s ts).card := Finset.card_powerset (netPlaces s ts)
  · intro fuel
    exact (bfsRun_inv fifoAppend insOK_fifo (netPlaces s ts) ts s hpl fuel
      ({s}, [s]) (initial_inv ts s)).qnd

/-- C4: the successor marking the engine computes for an enabled transition is
`(current \ pre) ∪ post`: a place is in the successor iff it survives the
removal of the precondition places or is added by the postcondition; a place
in both `pre` and `post` is present in the successor, and a place in `post`
is present whether or not it was in `current`. -/
theorem fire_computes_difference_union (current : Marking) (t : TransInfo) :
    fire current t = (current \ t.pre) ∪ t.post ∧
    (∀ p : ℕ, p ∈ fire current t ↔ (p ∈ current ∧ p ∉ t.pre) ∨ p ∈ t.post) ∧
    (∀ p : ℕ, p ∈ t.pre → p ∈ t.post → p ∈ fire current t) ∧
    (∀ p : ℕ, p ∈ t.post → p ∈ fire current t) := by
  refine ⟨rfl, ?_, ?_, ?_⟩
  · intro p
    simp [fire, Finset.mem_union, Finset.mem_sdiff]
  · intro p _ hpost
    simp [fire, hpost]
  · intro p hpost
    simp [fire, hpost]

theorem fire_computes_difference_union_witness :
    7 ∈ fire {1} (⟨{1, 7}, {7}⟩ : TransInfo) ∧
      9 ∈ fire {1} (⟨{1}, {9}⟩ : TransInfo) :=
  ⟨(fire_computes_difference_union {1} ⟨{1, 7}, {7}⟩).2.2.1 7 (by decide) (by decide),
   (fire_computes_difference_union {1} ⟨{1}, {9}⟩).2.2.2 9 (by decide)⟩

/-- C5: the enabled test of the engine succeeds exactly when the
precondition set of the transition is a subset of the current marking; a
transition with an empty precondition set is enabled in every marking. -/
theorem enabled_iff_pre_subset (current : Marking) (t : TransInfo) :
    (enabledTest current t = true ↔ t.pre ⊆ current) ∧
    (t.pre = ∅ → enabledTest current t = true) := by
  constructor
  · simp [enabledTest]
  · intro h
    exact decide_eq_true (by rw [h]; exact Finset.empty_subset current)

theorem enabled_iff_pre_subset_witness :
    enabledTest ∅ (⟨∅, {2}⟩ : TransInfo) = true :=
  (enabled_iff_pre_subset ∅ ⟨∅, {2}⟩).2 rfl

/-- C6: the returned set is invariant under permuting the transition table,
and the visited set produced with any admissible worklist discipline (any
insertion function that adds exactly the new marking to the pending queue)
equals the FIFO result. -/
theorem bfs_order_and_discipline_independent (s : Marking)
    (ts ts2 : List (ℕ × TransInfo))
    (ins : List Marking → Marking → List Marking) :
    (ts.Perm ts2 →
      find_reachable_markings_bfs s ts = find_reachable_markings_bfs s ts2) ∧
    (InsOK ins →
      (bfsRun ins ts (bfsFuel s ts) ({s}, [s])).1
        = find_reachable_markings_bfs s ts) := by
  constructor
  · intro hperm
    apply Finset.ext
    intro m
    rw [mem_find_iff, mem_find_iff]
    exact ⟨reachable_of_subset ts ts2 s (fun t ht => hperm.mem_iff.mp ht) m,
      reachable_of_subset ts2 ts s (fun t ht => hperm.mem_iff.mpr ht) m⟩
  · intro hins
    apply Finset.ext
    intro m
    rw [mem_bfsRun_iff ins hins, mem_find_iff]

theorem bfs_order_and_discipline_independent_witness :
    find_reachable_markings_bfs {1} [(1, ⟨{1}, {2}⟩), (2, ⟨{2}, {1}⟩)]
        = find_reachable_markings_bfs {1} [(2, ⟨{2}, {1}⟩), (1, ⟨{1}, {2}⟩)] ∧
    (bfsRun (fun q x => x :: q) [(1, ⟨{1}, {2}⟩), (2, ⟨{2}, {1}⟩)]
        (bfsFuel {1} [(1, ⟨{1}, {2}⟩), (2, ⟨{2}, {1}⟩)]) ({{1}}, [{1}])).1
      = find_reachable_markings_bfs {1} [(1, ⟨{1}, {2}⟩), (2, ⟨{2}, {1}⟩)] :=
  ⟨(bfs_order_and_discipline_independent {1} [(1, ⟨{1}, {2}⟩), (2, ⟨{2}, {1}⟩)]
        [(2, ⟨{2}, {1}⟩), (1, ⟨{1}, {2}⟩)] fifoAppend).1
      (List.Perm.swap _ _ _),
   (bfs_order_and_discipline_independent {1} [(1, ⟨{1}, {2}⟩), (2, ⟨{2}, {1}⟩)]
        [(2, ⟨{2}, {1}⟩), (1, ⟨{1}, {2}⟩)] (fun q x => x :: q)).2
      (fun q x => ⟨rfl, fun y => (List.mem_cons).trans or_comm⟩)⟩

/-- C7: on the net with places `{p1, p2, p3}`, one transition `t1` with
precondition `{p1, p2}` and postcondition `{p3}`, and initial marking `{p1}`
(encoded as `p1 = 1, p2 = 2, p3 = 3`), the engine returns exactly `{{p1}}`:
`t1` never fires because `p2` is never present. -/
theorem bfs_scenario_two_token_precondition :
    find_reachable_markings_bfs {1} [(1, ⟨{1, 2}, {3}⟩)] = {({1} : Finset ℕ)} := by
  decide

/-- C8: the engine is a total function: on every well-formed transition table
and initial marking the loop reaches its normal exit (empty frontier) — no
failure branch exists — and the engine returns the visited set accumulated at
that point. -/
theorem bfs_total_returns_result (s : Marking) (ts : List (ℕ × TransInfo)) :
    bfsRun fifoAppend ts (bfsFuel s ts) ({s}, [s])
      = (find_reachable_markings_bfs s ts, []) := by
  have hpl : ∀ t ∈ ts, t.2.post ⊆ netPlaces s ts :=
    fun t ht => ((netPlaces_spec ts s).2 t ht).2
  have hone : 1 ≤ 2 ^ (netPlaces s ts).card := Nat.one_le_two_pow
  have hfu : 2 ^ (netPlaces s ts).card - ({s} : Finset Marking).card
      + ([s] : List Marking).length ≤ bfsFuel s ts := by
    simp only [Finset.card_singleton, List.length_singleton, bfsFuel]
    omega
  obtain ⟨hemp, _, _⟩ := bfsRun_correct fifoAppend insOK_fifo (netPlaces s ts) ts s
    hpl (bfsFuel s ts) ({s}, [s]) (initial_inv ts s) hfu
  exact Prod.ext_iff.mpr ⟨rfl, hemp⟩

/-- C10: every marking the engine returns is contained in the union of the
initial marking with the postcondition sets of all transitions; no other
identifier can ever appear in a returned marking. -/
theorem bfs_markings_within_initial_and_posts (s : Marking)
    (ts : List (ℕ × TransInfo)) (m : Marking)
    (hm : m ∈ find_reachable_markings_bfs s ts) : m ⊆ s ∪ postUnion ts := by
  have hr : Reachable ts s m := (mem_find_iff ts s m).mp hm
  clear hm
  induction hr with
  | refl => exact Finset.subset_union_left
  | step m2 t h2 ht hpre ih =>
    refine Finset.union_subset (Finset.sdiff_subset.trans ih) ?_
    exact (postUnion_trans_subset ts t ht).trans Finset.subset_union_right

theorem bfs_markings_within_initial_and_posts_witness :
    ({2} : Finset ℕ) ⊆ {1} ∪ postUnion [(1, (⟨{1}, {2}⟩ : TransInfo))] :=
  bfs_markings_within_initial_and_posts {1} [(1, ⟨{1}, {2}⟩)] {2} (by decide)

/-! ### Adapter lemmas -/

theorem dictGet_addPre_same (tid pid : ℕ) :
    ∀ d : List (ℕ × TransInfo), dictGet tid (addPre d tid pid)
      = (dictGet tid d).map fun r => ⟨insert pid r.pre, r.post⟩
  | [] => rfl
  | e :: rest => by
    by_cases h : e.1 = tid
    · simp [addPre, dictGet, h]
    · simpa [addPre, dictGet, h] using dictGet_addPre_same tid pid rest

theorem dictGet_addPre_other (tid k pid : ℕ) (hk : k ≠ tid) :
    ∀ d : List (ℕ × TransInfo), dictGet tid (addPre d k pid) = dictGet tid d
  | [] => rfl
  | e :: rest => by
    by_cases h : e.1 = k
    · simpa [addPre, dictGet, h, hk] using dictGet_addPre_other tid k pid hk rest
    · by_cases h2 : e.1 = tid
      · simp [addPre, dictGet, h, h2, Ne.symm hk]
      · simpa [addPre, dictGet, h, h2] using dictGet_addPre_other tid k pid hk rest

theorem dictGet_addPost_same (tid pid : ℕ) :
    ∀ d : List (ℕ × TransInfo), dictGet tid (addPost d tid pid)
      = (dictGet tid d).map fun r => ⟨r.pre, insert pid r.post⟩
  | [] => rfl
  | e :: rest => by
    by_cases h : e.1 = tid
    · simp [addPost, dictGet, h]
    · simpa [addPost, dictGet, h] using dictGet_addPost_same tid pid rest

theorem dictGet_addPost_other (tid k pid : ℕ) (hk : k ≠ tid) :
    ∀ d : List (ℕ × TransInfo), dictGet tid (addPost d k pid) = dictGet tid d
  | [] => rfl
  | e :: rest => by
    by_cases h : e.1 = k
    · simpa [addPost, dictGet, h, hk] using dictGet_addPost_other tid k pid hk rest
    · by_cases h2 : e.1 = tid
      · simp [addPost, dictGet, h, h2, Ne.symm hk]
      · simpa [addPost, dictGet, h, h2] using dictGet_addPost_other tid k pid hk rest

theorem dictGet_init (tid : ℕ) :
    ∀ l : List ℕ, tid ∈ l →
      dictGet tid (l.map fun t_id => (t_id, (⟨∅, ∅⟩ : TransInfo))) = some ⟨∅, ∅⟩
  | [], h => absurd h (List.not_mem_nil tid)
  | a :: rest, h => by
    by_cases ha : a = tid
    · simp [dictGet, ha]
    · have hmem : tid ∈ rest := by
        rcases List.mem_cons.mp h with h2 | h2
        · exact absurd h2.symm ha
        · exact h2
      simpa [dictGet, ha] using dictGet_init tid rest hmem

theorem specPreL_cons_pos (net : PetriNet) (tid : ℕ) (a : Arc) (l : List Arc)
    (h1 : a.source ∈ placeKeys net) (h2 : a.target = tid) :
    specPreL net tid (a :: l) = insert a.source (specPreL net tid l) := by
  simp [specPreL, List.filter_cons, h1, h2]

theorem specPreL_cons_neg (net : PetriNet) (tid : ℕ) (a : Arc) (l : List Arc)
    (h : ¬(a.source ∈ placeKeys net ∧ a.target = tid)) :
    specPreL net tid (a :: l) = specPreL net tid l := by
  have hb : (decide (a.source ∈ placeKeys net) && decide (a.target = tid)) = false := by
    rcases Decidable.not_and_iff_or_not.mp h with h1 | h1 <;> simp [h1]
  simp [specPreL, List.filter_cons, hb]

theorem specPostL_cons_pos (net : PetriNet) (tid : ℕ) (a : Arc) (l : List Arc)
    (h1 : a.source = tid) (h2 : a.target ∈ placeKeys net) :
    specPostL net tid (a :: l) = insert a.target (specPostL net tid l) := by
  simp [specPostL, List.filter_cons, h1, h2]

theorem specPostL_cons_neg (net : PetriNet) (tid : ℕ) (a : Arc) (l : List Arc)
    (h : ¬(a.source = tid ∧ a.target ∈ placeKeys net)) :
    specPostL net tid (a :: l) = specPostL net tid l := by
  have hb : (decide (a.source = tid) && decide (a.target ∈ placeKeys net)) = false := by
    rcases Decidable.not_and_iff_or_not.mp h with h1 | h1 <;> simp [h1]
  simp [specPostL, List.filter_cons, hb]

theorem dictGet_foldl_arcs (net : PetriNet)
    (hdisj : ∀ x ∈ placeKeys net, x ∉ net.transitions) (tid : ℕ)
    (htid : tid ∈ net.transitions) :
    ∀ (l : List Arc) (d : List (ℕ × TransInfo)) (r : TransInfo),
      dictGet tid d = some r →
      dictGet tid (l.foldl (applyArc net) d)
        = some ⟨r.pre ∪ specPreL net tid l, r.post ∪ specPostL net tid l⟩ := by
  intro l
  induction l with
  | nil =>
    intro d r h
    show dictGet tid d = some ⟨r.pre ∪ specPreL net tid [], r.post ∪ specPostL net tid []⟩
    have h1 : specPreL net tid [] = ∅ := rfl
    have h2 : specPostL net tid [] = ∅ := rfl
    rw [h1, h2, Finset.union_empty, Finset.union_empty, h]
  | cons a l2 ih =>
    intro d r h
    have hfold : (a :: l2).foldl (applyArc net) d = l2.foldl (applyArc net) (applyArc net d a) := rfl
    rw [hfold]
    by_cases hb1 : a.source ∈ placeKeys net ∧ a.target ∈ net.transitions
    · have happ : applyArc net d a = addPre d a.target a.source := by
        simp [applyArc, hb1]
      have hsrcnot : a.source ≠ tid := fun he => hdisj a.source hb1.1 (he ▸ htid)
      by_cases htgt : a.target = tid
      · have hd2 : dictGet tid (applyArc net d a) = some ⟨insert a.source r.pre, r.post⟩ := by
          rw [happ, htgt, dictGet_addPre_same, h]
          rfl
        rw [ih _ _ hd2, specPreL_cons_pos net tid a l2 hb1.1 htgt,
          specPostL_cons_neg net tid a l2 (fun hc => hsrcnot hc.1),
          Finset.insert_union, Finset.union_insert]
      · have hd2 : dictGet tid (applyArc net d a) = some r := by
          rw [happ, dictGet_addPre_other tid a.target a.source htgt, h]
        rw [ih _ _ hd2, specPreL_cons_neg net tid a l2 (fun hc => htgt hc.2),
          specPostL_cons_neg net tid a l2 (fun hc => hsrcnot hc.1)]
    · by_cases hb2 : a.source ∈ net.transitions ∧ a.target ∈ placeKeys net
      · have happ : applyArc net d a = addPost d a.source a.target := by
          simp [applyArc, hb1, hb2]
        have htgtnot : a.target ≠ tid := fun he => hdisj a.target hb2.2 (he ▸ htid)
        have hprene : ¬(a.source ∈ placeKeys net ∧ a.target = tid) :=
          fun hc => htgtnot hc.2
        by_cases hsrc : a.source = tid
        · have hd2 : dictGet tid (applyArc net d a) = some ⟨r.pre, insert a.target r.post⟩ := by
            rw [happ, hsrc, dictGet_addPost_same, h]
            rfl
          rw [ih _ _ hd2, specPreL_cons_neg net tid a l2 hprene,
            specPostL_cons_pos net tid a l2 hsrc hb2.2,
            Finset.insert_union, Finset.union_insert]
        · have hd2 : dictGet tid (applyArc net d a) = some r := by
            rw [happ, dictGet_addPost_other tid a.source a.target hsrc, h]
          rw [ih _ _ hd2, specPreL_cons_neg net tid a l2 hprene,
            specPostL_cons_neg net tid a l2 (fun hc => hsrc hc.1)]
      · have happ : applyArc net d a = d := by
          simp [applyArc, hb1, hb2]
        rw [happ, ih _ _ h,
          specPreL_cons_neg net tid a l2
            (fun hc => hb1 ⟨hc.1, hc.2 ▸ htid⟩),
          specPostL_cons_neg net tid a l2
            (fun hc => hb2 ⟨hc.1 ▸ htid, hc.2⟩)]

/-- C3: the adapter returns (1) the set of identifiers of places whose
initial token count is positive, and (2) a table in which every declared
transition maps to exactly the precondition set of sources of
place→transition arcs targeting it and the postcondition set of targets of
transition→place arcs leaving it; arcs matching neither pattern (place→place,
transition→transition, unknown endpoint) contribute nothing. Stated for nets
whose place keys and transition keys are disjoint (the net is bipartite). -/
theorem convert_net_builds_marking_and_table (net : PetriNet)
    (hdisj : ∀ x ∈ placeKeys net, x ∉ net.transitions) :
    (∀ x : ℕ, x ∈ (convert_net_to_bfs_format net).1 ↔
      ∃ p : Place, (∃ k : ℕ, (k, p) ∈ net.places) ∧ 0 < p.initial_marking ∧ p.id = x) ∧
    (∀ tid ∈ net.transitions,
      dictGet tid (convert_net_to_bfs_format net).2
        = some ⟨specPre net tid, specPost net tid⟩) := by
  constructor
  · intro x
    show x ∈ (((net.places.map Prod.snd).filter fun p =>
        decide (0 < p.initial_marking)).map Place.id).toFinset ↔ _
    rw [List.mem_toFinset, List.mem_map]
    constructor
    · rintro ⟨p, hpf, hid⟩
      rw [List.mem_filter] at hpf
      obtain ⟨hp, hpos⟩ := hpf
      rw [List.mem_map] at hp
      obtain ⟨⟨k, p2⟩, he, rfl⟩ := hp
      exact ⟨p2, ⟨k, he⟩, of_decide_eq_true hpos, hid⟩
    · rintro ⟨p, ⟨k, hk⟩, hpos, hid⟩
      refine ⟨p, ?_, hid⟩
      rw [List.mem_filter]
      exact ⟨List.mem_map.mpr ⟨(k, p), hk, rfl⟩, decide_eq_true hpos⟩
  · intro tid htid
    show dictGet tid (net.arcs.foldl (applyArc net)
      (net.transitions.map fun t_id => (t_id, (⟨∅, ∅⟩ : TransInfo)))) = _
    rw [dictGet_foldl_arcs net hdisj tid htid net.arcs _ ⟨∅, ∅⟩
      (dictGet_init tid net.transitions htid)]
    show some (⟨Finset.empty ∪ _, Finset.empty ∪ _⟩ : TransInfo) = _
    rw [show (Finset.empty : Finset ℕ) = ∅ from rfl, Finset.empty_union, Finset.empty_union]
    rfl

theorem convert_net_builds_marking_and_table_witness :
    (1 ∈ (convert_net_to_bfs_format exNet).1) ∧
      dictGet 10 (convert_net_to_bfs_format exNet).2
        = some ⟨{1}, {3}⟩ :=
  ⟨((convert_net_builds_marking_and_table exNet (by decide)).1 1).mpr
      ⟨⟨1, 1⟩, ⟨1, by decide⟩, by decide, rfl⟩,
   ((convert_net_builds_marking_and_table exNet (by decide)).2 10 (by decide)).trans
      (by decide)⟩

/-! ### Frame property: the engine never writes its arguments -/

theorem fireStepSt_eq (current : Marking) (s0 : Marking)
    (ts0 : List (ℕ × TransInfo)) (v : Finset Marking) (q : List Marking)
    (t : ℕ × TransInfo) :
    fireStepSt current ⟨s0, ts0, v, q⟩ t
      = ⟨s0, ts0, (fireStep fifoAppend current (v, q) t).1,
          (fireStep fifoAppend current (v, q) t).2⟩ := by
  by_cases h1 : enabledTest current t.2
  · by_cases h2 : fire current t.2 ∈ v
    · simp [fireStepSt, fireStep, h1, h2]
    · simp [fireStepSt, fireStep, fifoAppend, h1, h2]
  · simp [fireStepSt, fireStep, h1]

theorem foldSt_eq (current : Marking) (s0 : Marking) (ts0 : List (ℕ × TransInfo)) :
    ∀ (l : List (ℕ × TransInfo)) (v : Finset Marking) (q : List Marking),
    l.foldl (fireStepSt current) ⟨s0, ts0, v, q⟩
      = ⟨s0, ts0, (l.foldl (fireStep fifoAppend current) (v, q)).1,
          (l.foldl (fireStep fifoAppend current) (v, q)).2⟩ := by
  intro l
  induction l with
  | nil => intro v q; rfl
  | cons a l2 ih =>
    intro v q
    show l2.foldl (fireStepSt current) (fireStepSt current ⟨s0, ts0, v, q⟩ a) = _
    rw [fireStepSt_eq current s0 ts0 v q a, ih]
    rfl

theorem bfsRunSt_eq :
    ∀ (fuel : ℕ) (s0 : Marking) (ts0 : List (ℕ × TransInfo)) (v : Finset Marking)
      (q : List Marking),
    bfsRunSt fuel ⟨s0, ts0, v, q⟩
      = ⟨s0, ts0, (bfsRun fifoAppend ts0 fuel (v, q)).1,
          (bfsRun fifoAppend ts0 fuel (v, q)).2⟩ := by
  intro fuel
  induction fuel with
  | zero => intro s0 ts0 v q; rfl
  | succ n ih =>
    intro s0 ts0 v q
    cases q with
    | nil => rfl
    | cons c rest =>
      show bfsRunSt n (ts0.foldl (fireStepSt c) ⟨s0, ts0, v, rest⟩) = _
      rw [foldSt_eq c s0 ts0 ts0 v rest, ih]
      rfl

/-- C9: the engine leaves both of its arguments unchanged. Threading the
argument objects through every loop iteration alongside the locals, the
state after the run still holds the original `start_marking` and
`all_transitions` (every operation the loop applies to them —
`all_transitions.items()`, the `pre` and `post` reads on `t_info`,
`pre_set.issubset`, set difference and union — is a read; only the local
`visited` and `queue` are written), and the `visited` component is exactly
the return value of the engine. -/
theorem bfs_arguments_unchanged (s : Marking) (ts : List (ℕ × TransInfo)) :
    (find_reachable_markings_bfs_st s ts).start_marking = s ∧
    (find_reachable_markings_bfs_st s ts).all_transitions = ts ∧
    (find_reachable_markings_bfs_st s ts).visited = find_reachable_markings_bfs s ts := by
  have h := bfsRunSt_eq (bfsFuel s ts) s ts {s} [s]
  exact ⟨congrArg EngineState.start_marking h, congrArg EngineState.all_transitions h,
    congrArg EngineState.visited h⟩

end Reachability
